import Mathlib

set_option linter.unusedVariables false

/-!
Shallow embedding of the flutter_nfs block cache and VFS read/write paths
(src/macos/Classes/block_cache.cpp, src/macos/Classes/block_cache.hpp,
src/macos/Classes/libretro_vfs_impl.cpp).

`uint64_t`/`size_t` arithmetic is modelled as `Nat` with explicit `% 2^64`
where the C++ computation can wrap; `static_cast<int>` of a `size_t` is
modelled as a two's-complement wrap to 32 bits.  Slot payloads are modelled
as functions `Nat → Nat` from byte index to byte value.  The mutex and
condition variable have no sequential content; operations are modelled as
state transformers on `CacheState`.
-/

/-- Modulus of `uint64_t` / `size_t` arithmetic. -/
def UINT64_MOD : Nat := 2 ^ 64

/-- The value `UINT64_MAX` used to seed the LRU scan in `BlockCache::evict_lru`. -/
def UINT64_MAX : Nat := 2 ^ 64 - 1

/-- Block size from block_cache.hpp: `constexpr size_t BLOCK_SIZE = 128 * 1024`. -/
def BLOCK_SIZE : Nat := 128 * 1024

/-- Value of `static_cast<int>(n)` for a `size_t` value `n` (two's-complement wrap). -/
def int32_cast (n : Nat) : Int := ((n : Int) + 2 ^ 31) % 2 ^ 32 - 2 ^ 31

/-- Value of `static_cast<int64_t>(n)` for a `size_t` value `n`. -/
def int64_cast (n : Nat) : Int := ((n : Int) + 2 ^ 63) % 2 ^ 64 - 2 ^ 63

/-- The `x - 1` of a `uint64_t` expression `x` (wraps at zero), as used in
`(offset + len - 1) / BLOCK_SIZE` computations. -/
def u64_pred (x : Nat) : Nat := (x % UINT64_MOD + UINT64_MOD - 1) % UINT64_MOD

/-- One cache slot, `BlockCache::Slot`: payload bytes, owning block id,
validity bit, LRU stamp.  Field defaults mirror the member initializers. -/
structure Slot where
  data : Nat → Nat
  block_id : Nat := 0
  valid : Bool := false
  last_access : Nat := 0

instance : Inhabited Slot := ⟨{ data := fun _ => 0 }⟩

/-- The mutable state of the `BlockCache` singleton: the slot vector `slots_`,
the map `id_to_slot_` (association list `block_id → slot index`), the slot
capacity recorded at init, and the monotonic access counter. -/
structure CacheState where
  slots : List Slot
  id_to_slot : List (Nat × Nat)
  capacity_slots : Nat := 0
  access_counter : Nat := 0

/-- `id_to_slot_.find(b)` on the association list model. -/
def lookupId : List (Nat × Nat) → Nat → Option Nat
  | [], _ => none
  | p :: rest, b => if p.1 = b then some p.2 else lookupId rest b

/-- `id_to_slot_.erase(b)` on the association list model. -/
def eraseId (m : List (Nat × Nat)) (b : Nat) : List (Nat × Nat) :=
  m.filter fun p => p.1 != b

/-- `id_to_slot_[b] = i` (insert-or-assign) on the association list model. -/
def insertId (m : List (Nat × Nat)) (b i : Nat) : List (Nat × Nat) :=
  (b, i) :: eraseId m b

/-- Slot at index `i` (`slots_[i]`); out-of-range reads yield the default slot
and never occur on the paths we verify. -/
def slotAt (st : CacheState) (i : Nat) : Slot := st.slots.getD i default

/-- `id_to_slot_.count(b) > 0`: the block is cached. -/
def present (st : CacheState) (block_id : Nat) : Bool :=
  (lookupId st.id_to_slot block_id).isSome

/-- First loop of `BlockCache::evict_lru`: return the index of the first
invalid slot, if any. -/
def find_invalid : List Slot → Nat → Option Nat
  | [], _ => none
  | s :: rest, i => if s.valid = false then some i else find_invalid rest (i + 1)

/-- Second loop of `BlockCache::evict_lru`: running minimum of `last_access`
(strict `<`, seeded with `UINT64_MAX` and victim `-1`, modelled as `none`). -/
def lru_scan : List Slot → Nat → Nat → Option Nat → Nat × Option Nat
  | [], _, m, vic => (m, vic)
  | s :: rest, i, m, vic =>
    if s.last_access < m then lru_scan rest (i + 1) s.last_access (some i)
    else lru_scan rest (i + 1) m vic

/-- `BlockCache::evict_lru`: prefer the first invalid slot; otherwise pick the
slot with minimal `last_access`, erase its id from the map and clear its
validity before reporting it.  `none` models the `-1` return. -/
def evict_lru (st : CacheState) : Option Nat × CacheState :=
  match find_invalid st.slots 0 with
  | some i => (some i, st)
  | none =>
    match (lru_scan st.slots 0 UINT64_MAX none).2 with
    | some v =>
      (some v,
        { st with
          id_to_slot := eraseId st.id_to_slot (slotAt st v).block_id,
          slots := st.slots.set v { slotAt st v with valid := false } })
    | none => (none, st)

/-- `BlockCache::put_block`.  A `none` data pointer models a null `src`
(the `memcpy` is skipped and the old payload bytes stay in place). -/
def put_block (st : CacheState) (block_id : Nat) (data : Option (Nat → Nat)) (len : Nat) :
    CacheState :=
  if (lookupId st.id_to_slot block_id).isSome then st
  else
    match evict_lru st with
    | (none, st') => st'
    | (some slot_idx, st') =>
      let copy_len := min len BLOCK_SIZE
      let s := slotAt st' slot_idx
      let newData : Nat → Nat := fun i =>
        if i < copy_len then
          match data with
          | some d => d i
          | none => s.data i
        else 0
      let c := (st'.access_counter + 1) % UINT64_MOD
      { st' with
        slots := st'.slots.set slot_idx
          { data := newData, block_id := block_id, valid := true, last_access := c },
        access_counter := c,
        id_to_slot := insertId st'.id_to_slot block_id slot_idx }

/-- `BlockCache::invalidate_block`. -/
def invalidate_block (st : CacheState) (block_id : Nat) : CacheState :=
  match lookupId st.id_to_slot block_id with
  | some i =>
    { st with
      slots := st.slots.set i { slotAt st i with valid := false },
      id_to_slot := eraseId st.id_to_slot block_id }
  | none => st

/-- `BlockCache::wait_for_block`: sequentially, the predicate re-check is a
presence test; the blocking itself has no effect on the cache state. -/
def wait_for_block (st : CacheState) (block_id : Nat) (timeout_ms : Nat) :
    Bool × CacheState :=
  ((lookupId st.id_to_slot block_id).isSome, st)

/-- `BlockCache::get_block_ptr`: on a hit, stamp `last_access` from the
incremented access counter and return the payload; on a miss return `none`. -/
def get_block_ptr (st : CacheState) (block_id : Nat) : Option (Nat → Nat) × CacheState :=
  match lookupId st.id_to_slot block_id with
  | some i =>
    let s := slotAt st i
    let c := (st.access_counter + 1) % UINT64_MOD
    (some s.data,
      { st with
        slots := st.slots.set i { s with last_access := c },
        access_counter := c })
  | none => (none, st)

/-- `cache_has_block` from the C API: implemented via `get_block_ptr`. -/
def cache_has_block (st : CacheState) (block_id : Nat) : Nat × CacheState :=
  let r := get_block_ptr st block_id
  (if r.1.isSome then 1 else 0, r.2)

/-- `BlockCache::init` with the already-converted `size_t` argument.  The
`capacity_mb <= 0` test on an unsigned quantity only catches zero. -/
def BlockCache.init (st : CacheState) (capacity_mb : Nat) : CacheState :=
  let capacity_mb := if capacity_mb ≤ 0 then 64 else capacity_mb
  let new_slots := capacity_mb * 1024 * 1024 % UINT64_MOD / BLOCK_SIZE
  if st.slots.isEmpty then
    { st with slots := List.replicate new_slots default, capacity_slots := new_slots }
  else st

/-- `cache_init` from the C API: the `int` argument is converted to `size_t`
(two's-complement, i.e. reduction mod `2^64`) before `BlockCache::init` runs. -/
def cache_init (st : CacheState) (capacity_mb : Int) : CacheState :=
  BlockCache.init st (capacity_mb % (UINT64_MOD : Int)).toNat

/-- Result of `BlockCache::read`: the returned `int`, the bytes written to
`out_buffer` (in order), the value stored through `out_actual_len`, and the
cache state after the call. -/
structure ReadResult where
  res : Int
  bytes : List Nat
  copied : Nat
  state : CacheState

/-- The block loop of `BlockCache::read`, iterating `fuel` block ids starting
at `b`.  The `Bool` is true when the very first needed block missed with
nothing copied (the `return -1` path). -/
def read_blocks (offset len start : Nat) :
    Nat → Nat → Nat → List Nat → CacheState → Bool × List Nat × Nat × CacheState
  | 0, _, copied, acc, st => (false, acc, copied, st)
  | fuel + 1, b, copied, acc, st =>
    match lookupId st.id_to_slot b with
    | none => (copied == 0, acc, copied, st)
    | some i =>
      let s := slotAt st i
      let c := (st.access_counter + 1) % UINT64_MOD
      let st1 := { st with
        slots := st.slots.set i { s with last_access := c },
        access_counter := c }
      let block_offset := if b = start then offset % BLOCK_SIZE else 0
      let to_copy := min (BLOCK_SIZE - block_offset) (len - copied)
      let bytes := (List.range to_copy).map fun k => s.data (block_offset + k)
      read_blocks offset len start fuel (b + 1) (copied + to_copy) (acc ++ bytes) st1

/-- `BlockCache::read(offset, len, out_buffer, out_actual_len)`. -/
def BlockCache.read (st : CacheState) (offset len : Nat) : ReadResult :=
  if st.id_to_slot.isEmpty then ⟨-1, [], 0, st⟩
  else
    let start := offset / BLOCK_SIZE
    let endb := u64_pred (offset + len) / BLOCK_SIZE
    match read_blocks offset len start (endb + 1 - start) start 0 [] st with
    | (missed_first, bytes, copied, st') =>
      if missed_first then ⟨-1, bytes, copied, st'⟩
      else ⟨int32_cast copied, bytes, copied, st'⟩

/-- Length of the run of consecutively present blocks starting at `b`,
looking at most `k` blocks ahead. -/
def present_run (st : CacheState) : Nat → Nat → Nat
  | _, 0 => 0
  | b, k + 1 => if present st b then present_run st (b + 1) k + 1 else 0

/-- Exclusive-mapping invariant of the cache (spec §8): every map entry points
at a valid slot carrying its id, and every valid slot's id maps back to it. -/
def WF (st : CacheState) : Prop :=
  (∀ p ∈ st.id_to_slot,
    p.2 < st.slots.length ∧ (slotAt st p.2).valid = true ∧ (slotAt st p.2).block_id = p.1) ∧
  (∀ i, i < st.slots.length → (slotAt st i).valid = true →
    lookupId st.id_to_slot (slotAt st i).block_id = some i)

instance (st : CacheState) : Decidable (WF st) := by
  unfold WF; infer_instance

/-- An open file handle (`RetroNfsFile`): logical offset and known size. -/
structure FileHandle where
  offset : Nat
  size : Nat

/-- Initial value of the process-wide `g_adaptive_timeout_ms`. -/
def g_adaptive_timeout_init : Nat := 4

/-- Successful-wait adjustment in `retro_vfs_read`:
`if (wait_ms < g_adaptive_timeout_ms / 2 && g_adaptive_timeout_ms > 2) g_adaptive_timeout_ms--`. -/
def adjust_on_success (T wait_ms : Nat) : Nat :=
  if wait_ms < T / 2 ∧ 2 < T then T - 1 else T

/-- Timed-out-wait adjustment in `retro_vfs_read`:
`if (g_adaptive_timeout_ms < 20) g_adaptive_timeout_ms += 2`. -/
def adjust_on_timeout (T : Nat) : Nat :=
  if T < 20 then T + 2 else T

/-- Outcome of one `wait_for_block` call in the read path, supplied by the
environment: either the prefetcher delivered the missing block (performing a
`put` with the given payload and length, observed after `wait_ms`
milliseconds), or the wait timed out. -/
inductive WaitOutcome where
  | appeared (data : Nat → Nat) (len : Nat) (wait_ms : Nat)
  | timedOut

/-- Result of the cache loop of `retro_vfs_read`. -/
structure LoopResult where
  state : CacheState
  timeout_ms : Nat
  total_read : Nat

/-- What one iteration of the cache loop of `retro_vfs_read` does before any
wait: exit the loop (`done`), or need a wait for `missing` after partial
progress (`waitPartial`, the `res > 0 && total < len` path), or need a wait
for the first missing block (`waitMiss`, the `res <= 0` path). -/
inductive IterStep where
  | done (st : CacheState) (total : Nat)
  | waitPartial (st : CacheState) (total2 missing : Nat)
  | waitMiss (st : CacheState) (missing : Nat)

/-- One iteration of the cache loop of `retro_vfs_read`, up to (but not
including) the bounded wait. -/
def readIter (fileOffset len totalRead : Nat) (st : CacheState) : IterStep :=
  if totalRead < len then
    let current_pos := (fileOffset + totalRead) % UINT64_MOD
    let r := BlockCache.read st current_pos (len - totalRead)
    if 0 < r.res then
      let total2 := totalRead + r.copied
      if len ≤ total2 then IterStep.done r.state total2
      else IterStep.waitPartial r.state total2 ((fileOffset + total2) % UINT64_MOD / BLOCK_SIZE)
    else IterStep.waitMiss r.state (current_pos / BLOCK_SIZE)
  else IterStep.done st totalRead

/-- The cache loop (step 1) of `retro_vfs_read`.  Each iteration that does not
exit performs exactly one bounded wait, whose outcome is drawn from `events`;
an exhausted event list behaves as a timed-out wait.  A successful wait
corresponds to a concurrent `put` of the missing block by the environment. -/
def readLoop (fileOffset len totalRead T : Nat) (st : CacheState) :
    List WaitOutcome → LoopResult
  | [] =>
    match readIter fileOffset len totalRead st with
    | IterStep.done st' total => ⟨st', T, total⟩
    | IterStep.waitPartial st' total2 _ => ⟨st', adjust_on_timeout T, total2⟩
    | IterStep.waitMiss st' _ => ⟨st', T, totalRead⟩
  | e :: rest =>
    match readIter fileOffset len totalRead st with
    | IterStep.done st' total => ⟨st', T, total⟩
    | IterStep.waitPartial st' total2 missing =>
      match e with
      | WaitOutcome.appeared d dlen wait_ms =>
        readLoop fileOffset len total2 (adjust_on_success T wait_ms)
          (put_block st' missing (some d) dlen) rest
      | WaitOutcome.timedOut => ⟨st', adjust_on_timeout T, total2⟩
    | IterStep.waitMiss st' missing =>
      match e with
      | WaitOutcome.appeared d dlen _ =>
        readLoop fileOffset len totalRead T (put_block st' missing (some d) dlen) rest
      | WaitOutcome.timedOut => ⟨st', T, totalRead⟩

/-- The backfill loop of `retro_vfs_read` (step 4): `put` every block whose
whole span lies inside the synchronously delivered byte range; the sub-block
prefetch hint has no cache effect. -/
def backfill (sync_data : Nat → Nat) (current_pos sync_end : Nat) :
    Nat → Nat → CacheState → CacheState
  | 0, _, st => st
  | fuel + 1, b, st =>
    let b_start := b * BLOCK_SIZE % UINT64_MOD
    let b_end := (b_start + BLOCK_SIZE) % UINT64_MOD
    if current_pos ≤ b_start ∧ b_end ≤ sync_end then
      backfill sync_data current_pos sync_end fuel (b + 1)
        (put_block st b (some fun i => sync_data (b_start - current_pos + i)) BLOCK_SIZE)
    else
      backfill sync_data current_pos sync_end fuel (b + 1) st

/-- Result of `retro_vfs_read` / `retro_vfs_write`: the returned `int64_t`,
the file handle, the cache state, and (for read) `g_adaptive_timeout_ms`. -/
structure VfsReadResult where
  res : Int
  file : FileHandle
  state : CacheState
  timeout_ms : Nat

/-- `retro_vfs_read(stream, s, len)`.  `T` is the entry value of
`g_adaptive_timeout_ms`; `events` feeds the bounded waits; `sync_res` and
`sync_data` are the result and payload of the single fallback `nfs_pread`. -/
def retro_vfs_read (T : Nat) (f : FileHandle) (st : CacheState) (len : Nat)
    (events : List WaitOutcome) (sync_res : Int) (sync_data : Nat → Nat) :
    VfsReadResult :=
  let lr := readLoop f.offset len 0 T st events
  let step2 :
      CacheState × Nat :=
    if lr.total_read < len then
      if 0 < sync_res then
        let n := sync_res.toNat
        let current_pos := (f.offset + lr.total_read) % UINT64_MOD
        let sync_end := (current_pos + n) % UINT64_MOD
        let first_block := current_pos / BLOCK_SIZE
        let last_block := u64_pred sync_end / BLOCK_SIZE
        (backfill sync_data current_pos sync_end (last_block + 1 - first_block) first_block
          lr.state,
          lr.total_read + n)
      else (lr.state, lr.total_read)
    else (lr.state, lr.total_read)
  if 0 < step2.2 then
    ⟨int64_cast step2.2, { f with offset := (f.offset + step2.2) % UINT64_MOD }, step2.1,
      lr.timeout_ms⟩
  else ⟨-1, f, step2.1, lr.timeout_ms⟩

/-- Result of `retro_vfs_write`. -/
structure VfsWriteResult where
  res : Int
  file : FileHandle
  state : CacheState

/-- The invalidation loop of `retro_vfs_write`. -/
def invalidate_range : Nat → Nat → CacheState → CacheState
  | 0, _, st => st
  | fuel + 1, b, st => invalidate_range fuel (b + 1) (invalidate_block st b)

/-- `retro_vfs_write(stream, s, len)` with the transport's `nfs_pwrite` result
supplied as `res`. -/
def retro_vfs_write (f : FileHandle) (st : CacheState) (len : Nat) (res : Int) :
    VfsWriteResult :=
  if 0 < res then
    let n := res.toNat
    let start_block := f.offset / BLOCK_SIZE
    let end_block := u64_pred (f.offset + n) / BLOCK_SIZE
    ⟨res, { f with offset := (f.offset + n) % UINT64_MOD },
      invalidate_range (end_block + 1 - start_block) start_block st⟩
  else ⟨res, f, st⟩

/-- One read-path wait for the adaptive-timeout analysis: a successful wait
observed after `wait_ms`, or a timed-out wait in the partial-progress branch. -/
inductive WaitStep where
  | success (wait_ms : Nat)
  | timeout

/-- Adjustment applied to `g_adaptive_timeout_ms` by one read-path wait. -/
def wait_adjust (T : Nat) : WaitStep → Nat
  | WaitStep.success ms => adjust_on_success T ms
  | WaitStep.timeout => adjust_on_timeout T

/-- Evolution of `g_adaptive_timeout_ms` over a sequence of read-path waits,
starting from its initial value 4. -/
def run_waits (l : List WaitStep) : Nat :=
  l.foldl wait_adjust g_adaptive_timeout_init

/-- A valid slot holding block 7, used to build small concrete cache states. -/
def witSlotA : Slot := { data := fun _ => 1, block_id := 7, valid := true, last_access := 1 }

/-- An untouched (invalid) slot. -/
def witSlotB : Slot := { data := fun _ => 0 }

/-- A two-slot cache holding block 7 in slot 0, slot 1 free. -/
def witState1 : CacheState :=
  { slots := [witSlotA, witSlotB], id_to_slot := [(7, 0)], capacity_slots := 2,
    access_counter := 1 }

/-- A fully valid two-slot cache: block 7 in slot 0 (older), block 9 in slot 1. -/
def witState2 : CacheState :=
  { slots := [witSlotA, { data := fun _ => 2, block_id := 9, valid := true, last_access := 2 }],
    id_to_slot := [(7, 0), (9, 1)], capacity_slots := 2, access_counter := 2 }

/-- The empty, never-initialized cache. -/
def witStateEmpty : CacheState := { slots := [], id_to_slot := [] }

/-- A file handle at offset 0. -/
def witFile : FileHandle := { offset := 0, size := 4096 }

/-! ### Helper lemmas on lists and the association-list map -/

theorem getD_set_self {α : Type} [Inhabited α] (l : List α) (i : Nat) (a : α)
    (h : i < l.length) : (l.set i a).getD i default = a := by
  simp [List.getD_eq_getElem?_getD, List.getElem?_set_self, h]

theorem getD_set_ne {α : Type} [Inhabited α] (l : List α) {i j : Nat} (a : α)
    (h : i ≠ j) : (l.set i a).getD j default = l.getD j default := by
  simp [List.getD_eq_getElem?_getD, List.getElem?_set_ne h]

theorem eraseId_cons (p : Nat × Nat) (rest : List (Nat × Nat)) (b : Nat) :
    eraseId (p :: rest) b = if p.1 = b then eraseId rest b else p :: eraseId rest b := by
  by_cases h : p.1 = b <;> simp [eraseId, List.filter_cons, h]

theorem lookupId_eraseId_self (m : List (Nat × Nat)) (b : Nat) :
    lookupId (eraseId m b) b = none := by
  induction m with
  | nil => rfl
  | cons p rest ih =>
    rw [eraseId_cons]
    by_cases h : p.1 = b
    · simpa [h] using ih
    · simpa [lookupId, h] using ih

theorem lookupId_eraseId_ne (m : List (Nat × Nat)) {b k : Nat} (h : k ≠ b) :
    lookupId (eraseId m b) k = lookupId m k := by
  induction m with
  | nil => rfl
  | cons p rest ih =>
    rw [eraseId_cons]
    by_cases hp : p.1 = b
    · have hk : p.1 ≠ k := by rw [hp]; exact fun hh => h hh.symm
      rw [if_pos hp, ih]
      simp [lookupId, hk]
    · rw [if_neg hp]
      simp only [lookupId]
      by_cases hpk : p.1 = k
      · simp [hpk]
      · simp [hpk, ih]

theorem lookupId_eraseId_none (m : List (Nat × Nat)) {b k : Nat}
    (h : lookupId m k = none) : lookupId (eraseId m b) k = none := by
  by_cases hk : k = b
  · subst hk; exact lookupId_eraseId_self m k
  · rw [lookupId_eraseId_ne m hk]; exact h

theorem lookupId_insertId_self (m : List (Nat × Nat)) (b i : Nat) :
    lookupId (insertId m b i) b = some i := by
  simp [insertId, lookupId]

theorem lookupId_insertId_ne (m : List (Nat × Nat)) {b k : Nat} (i : Nat) (h : k ≠ b) :
    lookupId (insertId m b i) k = lookupId m k := by
  have hb : b ≠ k := fun hh => h hh.symm
  simp [insertId, lookupId, hb, lookupId_eraseId_ne m h]

theorem mem_of_lookupId {m : List (Nat × Nat)} {k v : Nat}
    (h : lookupId m k = some v) : (k, v) ∈ m := by
  induction m with
  | nil => simp [lookupId] at h
  | cons p rest ih =>
    by_cases hp : p.1 = k
    · simp only [lookupId, hp, if_pos] at h
      have : p = (k, v) := by
        cases p
        simp_all
      simp [this]
    · simp only [lookupId, hp, if_neg, if_false] at h
      exact List.mem_cons_of_mem _ (ih h)

theorem mem_eraseId {m : List (Nat × Nat)} {b : Nat} {p : Nat × Nat}
    (h : p ∈ eraseId m b) : p ∈ m ∧ p.1 ≠ b := by
  simpa [eraseId, List.mem_filter, bne_iff_ne] using h

theorem mem_insertId {m : List (Nat × Nat)} {b i : Nat} {p : Nat × Nat}
    (h : p ∈ insertId m b i) : p = (b, i) ∨ (p ∈ m ∧ p.1 ≠ b) := by
  rcases List.mem_cons.mp h with h' | h'
  · exact Or.inl h'
  · exact Or.inr (mem_eraseId h')

theorem getD_mem {α : Type} [Inhabited α] {l : List α} {i : Nat}
    (h : i < l.length) : l.getD i default ∈ l := by
  rw [List.getD_eq_getElem l default h]
  exact List.getElem_mem h

/-! ### Lemmas about the eviction scan -/

theorem find_invalid_none {l : List Slot} :
    ∀ {i : Nat}, find_invalid l i = none → ∀ s ∈ l, s.valid = true := by
  induction l with
  | nil => intro i _ s hs; simp at hs
  | cons s rest ih =>
    intro i h t ht
    by_cases hv : s.valid = false
    · simp [find_invalid, hv] at h
    · rcases List.mem_cons.mp ht with rfl | ht'
      · simpa using hv
      · exact ih (by simpa [find_invalid, hv] using h) t ht'

theorem find_invalid_some {l : List Slot} :
    ∀ {i v : Nat}, find_invalid l i = some v →
      ∃ j, j < l.length ∧ v = i + j ∧ (l.getD j default).valid = false := by
  induction l with
  | nil => intro i v h; simp [find_invalid] at h
  | cons s rest ih =>
    intro i v h
    by_cases hv : s.valid = false
    · have hvi : v = i := by simpa [find_invalid, hv] using h.symm
      exact ⟨0, by simp, by omega, by simpa using hv⟩
    · rcases ih (by simpa [find_invalid, hv] using h) with ⟨j, hj, hv', hval⟩
      exact ⟨j + 1, by simpa using Nat.succ_lt_succ hj, by omega, by simpa using hval⟩

theorem find_invalid_isSome {l : List Slot} (h : ∃ s ∈ l, s.valid = false) :
    ∀ i, (find_invalid l i).isSome = true := by
  induction l with
  | nil => simp at h
  | cons s rest ih =>
    intro i
    by_cases hv : s.valid = false
    · simp [find_invalid, hv]
    · rcases h with ⟨t, ht, hval⟩
      rcases List.mem_cons.mp ht with rfl | ht'
      · exact absurd hval hv
      · simpa [find_invalid, hv] using ih ⟨t, ht', hval⟩ (i + 1)

theorem lru_scan_min_le (l : List Slot) : ∀ (i m : Nat) (vic : Option Nat),
    (lru_scan l i m vic).1 ≤ m := by
  induction l with
  | nil => intro i m vic; simp [lru_scan]
  | cons s rest ih =>
    intro i m vic
    simp only [lru_scan]
    by_cases h : s.last_access < m
    · rw [if_pos h]
      exact le_trans (ih (i + 1) s.last_access (some i)) (le_of_lt h)
    · rw [if_neg h]
      exact ih (i + 1) m vic

theorem lru_scan_min_all (l : List Slot) : ∀ (i m : Nat) (vic : Option Nat),
    ∀ s ∈ l, (lru_scan l i m vic).1 ≤ s.last_access := by
  induction l with
  | nil => intro i m vic s hs; simp at hs
  | cons s rest ih =>
    intro i m vic t ht
    simp only [lru_scan]
    by_cases h : s.last_access < m
    · rw [if_pos h]
      rcases List.mem_cons.mp ht with rfl | ht'
      · exact lru_scan_min_le rest (i + 1) t.last_access (some i)
      · exact ih (i + 1) _ _ t ht'
    · rw [if_neg h]
      rcases List.mem_cons.mp ht with rfl | ht'
      · exact le_trans (lru_scan_min_le rest (i + 1) m vic) (Nat.le_of_not_lt h)
      · exact ih (i + 1) m vic t ht'

theorem lru_scan_stable (l : List Slot) : ∀ (i m : Nat) (vic : Option Nat),
    (lru_scan l i m vic).1 = m → (lru_scan l i m vic).2 = vic := by
  induction l with
  | nil => intro i m vic _; rfl
  | cons s rest ih =>
    intro i m vic h
    simp only [lru_scan] at h ⊢
    by_cases hl : s.last_access < m
    · rw [if_pos hl] at h ⊢
      have := lru_scan_min_le rest (i + 1) s.last_access (some i)
      omega
    · rw [if_neg hl] at h ⊢
      exact ih (i + 1) m vic h

theorem lru_scan_lt (l : List Slot) : ∀ (i m : Nat) (vic : Option Nat),
    (lru_scan l i m vic).1 < m →
    ∃ j, j < l.length ∧ (lru_scan l i m vic).2 = some (i + j) ∧
      (l.getD j default).last_access = (lru_scan l i m vic).1 := by
  induction l with
  | nil => intro i m vic h; simp [lru_scan] at h
  | cons s rest ih =>
    intro i m vic h
    simp only [lru_scan] at h ⊢
    by_cases hl : s.last_access < m
    · rw [if_pos hl] at h ⊢
      by_cases h2 : (lru_scan rest (i + 1) s.last_access (some i)).1 < s.last_access
      · rcases ih (i + 1) s.last_access (some i) h2 with ⟨j, hj, hv, ha⟩
        refine ⟨j + 1, Nat.succ_lt_succ hj, ?_, by simpa using ha⟩
        rw [hv]
        congr 1
        omega
      · have heq : (lru_scan rest (i + 1) s.last_access (some i)).1 = s.last_access :=
          le_antisymm (lru_scan_min_le rest (i + 1) s.last_access (some i))
            (Nat.le_of_not_lt h2)
        refine ⟨0, by simp, ?_, ?_⟩
        · rw [lru_scan_stable rest (i + 1) s.last_access (some i) heq]
          simp
        · simp [List.getD_cons_zero, heq]
    · rw [if_neg hl] at h ⊢
      rcases ih (i + 1) m vic h with ⟨j, hj, hv, ha⟩
      refine ⟨j + 1, Nat.succ_lt_succ hj, ?_, by simpa using ha⟩
      rw [hv]
      congr 1
      omega

theorem evict_lru_invalid {st : CacheState} {v : Nat}
    (h : find_invalid st.slots 0 = some v) :
    evict_lru st = (some v, st) ∧ v < st.slots.length ∧ (slotAt st v).valid = false := by
  rcases find_invalid_some h with ⟨j, hj, hv, hval⟩
  have hvj : v = j := by omega
  subst hvj
  exact ⟨by simp [evict_lru, h], hj, by simpa [slotAt] using hval⟩

theorem evict_lru_all_valid (st : CacheState)
    (hinv : find_invalid st.slots 0 = none)
    (hne : 0 < st.slots.length)
    (hacc : ∀ s ∈ st.slots, s.last_access < UINT64_MAX) :
    ∃ v, v < st.slots.length ∧
      evict_lru st = (some v,
        { st with id_to_slot := eraseId st.id_to_slot (slotAt st v).block_id,
                  slots := st.slots.set v { slotAt st v with valid := false } }) ∧
      (∀ i, i < st.slots.length → (slotAt st v).last_access ≤ (slotAt st i).last_access) := by
  obtain ⟨s0, hs0⟩ : ∃ s, s ∈ st.slots := by
    rcases hl : st.slots with _ | ⟨a, l⟩
    · rw [hl] at hne; simp at hne
    · exact ⟨a, by simp⟩
  have hlt : (lru_scan st.slots 0 UINT64_MAX none).1 < UINT64_MAX :=
    lt_of_le_of_lt (lru_scan_min_all st.slots 0 UINT64_MAX none s0 hs0) (hacc s0 hs0)
  rcases lru_scan_lt st.slots 0 UINT64_MAX none hlt with ⟨j, hj, hvic, ha⟩
  refine ⟨j, hj, ?_, ?_⟩
  · simp only [evict_lru, hinv]
    rw [hvic]
    norm_num
  · intro i hi
    have hmin : (lru_scan st.slots 0 UINT64_MAX none).1 ≤ (slotAt st i).last_access :=
      lru_scan_min_all st.slots 0 UINT64_MAX none _ (getD_mem hi)
    have hj' : (slotAt st j).last_access = (lru_scan st.slots 0 UINT64_MAX none).1 := ha
    omega

/-! ### C3: eviction picks an invalid slot first, else the LRU valid slot -/

/-- C3: for every cache state (with at least one slot, and `last_access`
stamps below `UINT64_MAX`, as produced by the monotonic access counter),
`BlockCache::evict_lru` chooses an invalid slot when one exists and otherwise
chooses a valid slot whose `last_access` is minimal among all slots, erasing
that slot's `block_id` from `id_to_slot_` and clearing its validity before the
slot is reused. -/
theorem c3_evict_lru (st : CacheState)
    (hne : 0 < st.slots.length)
    (hacc : ∀ s ∈ st.slots, s.last_access < UINT64_MAX) :
    ∃ v, (evict_lru st).1 = some v ∧ v < st.slots.length ∧
      ((∃ i, i < st.slots.length ∧ (slotAt st i).valid = false) →
        (slotAt st v).valid = false ∧ (evict_lru st).2 = st) ∧
      ((∀ i, i < st.slots.length → (slotAt st i).valid = true) →
        (slotAt st v).valid = true ∧
        (∀ i, i < st.slots.length →
          (slotAt st v).last_access ≤ (slotAt st i).last_access) ∧
        (evict_lru st).2.id_to_slot = eraseId st.id_to_slot ((slotAt st v).block_id) ∧
        (evict_lru st).2.slots = st.slots.set v { slotAt st v with valid := false }) := by
  cases hfi : find_invalid st.slots 0 with
  | some i =>
    obtain ⟨heq, hil, hiv⟩ := evict_lru_invalid hfi
    refine ⟨i, by rw [heq], hil, fun _ => ⟨hiv, by rw [heq]⟩, fun hall => ?_⟩
    have h1 : (slotAt st i).valid = true := hall i hil
    rw [hiv] at h1
    exact Bool.noConfusion h1
  | none =>
    have hall : ∀ s ∈ st.slots, s.valid = true := find_invalid_none hfi
    obtain ⟨v, hvl, heq, hmin⟩ := evict_lru_all_valid st hfi hne hacc
    refine ⟨v, by rw [heq], hvl, fun hex => ?_, fun _ => ?_⟩
    · rcases hex with ⟨i, hil, hiv⟩
      have h1 : (slotAt st i).valid = true := hall _ (getD_mem hil)
      rw [hiv] at h1
      exact Bool.noConfusion h1
    · exact ⟨hall _ (getD_mem hvl), hmin, by rw [heq], by rw [heq]⟩

/-- Witness for C3 at the concrete fully-valid two-slot cache `witState2`. -/
theorem c3_evict_lru_witness :
    (0 < witState2.slots.length ∧ ∀ s ∈ witState2.slots, s.last_access < UINT64_MAX) ∧
    (∃ v, (evict_lru witState2).1 = some v ∧ v < witState2.slots.length ∧
      ((∃ i, i < witState2.slots.length ∧ (slotAt witState2 i).valid = false) →
        (slotAt witState2 v).valid = false ∧ (evict_lru witState2).2 = witState2) ∧
      ((∀ i, i < witState2.slots.length → (slotAt witState2 i).valid = true) →
        (slotAt witState2 v).valid = true ∧
        (∀ i, i < witState2.slots.length →
          (slotAt witState2 v).last_access ≤ (slotAt witState2 i).last_access) ∧
        (evict_lru witState2).2.id_to_slot =
          eraseId witState2.id_to_slot ((slotAt witState2 v).block_id) ∧
        (evict_lru witState2).2.slots =
          witState2.slots.set v { slotAt witState2 v with valid := false })) :=
  ⟨⟨by decide, by decide⟩, c3_evict_lru witState2 (by decide) (by decide)⟩

/-! ### C10: the external presence check is not read-only -/

/-- C10: `cache_has_block` is implemented via `get_block_ptr`, so it is not
read-only: when block `b` is present in slot `i` it returns 1 and re-stamps
that slot's `last_access` from the incremented access counter (changing
subsequent LRU eviction order); when `b` is absent it returns 0 and leaves
the cache state unchanged. -/
theorem c10_cache_has_block (st : CacheState) (b : Nat) :
    (∀ i, lookupId st.id_to_slot b = some i →
      cache_has_block st b =
        (1, { st with
              slots := st.slots.set i
                { slotAt st i with last_access := (st.access_counter + 1) % UINT64_MOD },
              access_counter := (st.access_counter + 1) % UINT64_MOD })) ∧
    (lookupId st.id_to_slot b = none → cache_has_block st b = (0, st)) := by
  constructor
  · intro i h
    simp [cache_has_block, get_block_ptr, h]
  · intro h
    simp [cache_has_block, get_block_ptr, h]

/-- Witness for C10: checking the present block 7 of `witState1` answers 1 and
bumps slot 0's stamp; checking the absent block 3 answers 0 and is a no-op. -/
theorem c10_cache_has_block_witness :
    cache_has_block witState1 7 =
      (1, { witState1 with
            slots := witState1.slots.set 0
              { slotAt witState1 0 with
                  last_access := (witState1.access_counter + 1) % UINT64_MOD },
            access_counter := (witState1.access_counter + 1) % UINT64_MOD }) ∧
    cache_has_block witState1 3 = (0, witState1) :=
  ⟨(c10_cache_has_block witState1 7).1 0 (by decide),
   (c10_cache_has_block witState1 3).2 (by decide)⟩

/-! ### C8: cache_init with zero or negative capacity -/

theorem init_nonempty_noop (st : CacheState) (h : st.slots.isEmpty = false) (c : Nat) :
    BlockCache.init st c = st := by
  simp [BlockCache.init, h]

/-- C8 (code bug): `cache_init(0)` on a fresh cache allocates the 512-slot
64 MiB default and a later `init` on a non-empty cache changes nothing, but a
negative argument such as `-1` is converted to the `size_t` value `2^64 - 1`,
slips past the unsigned `capacity_mb <= 0` test, and makes `init` attempt
`2^47 - 8` slots (about 2^64 bytes) instead of the documented 512-slot
default. -/
theorem c8_cache_init_negative :
    (cache_init witStateEmpty 0).slots.length = 512 ∧
    (cache_init witStateEmpty (-1)).slots.length = 2 ^ 47 - 8 ∧
    ((2 : Nat) ^ 47 - 8 ≠ 512) ∧
    cache_init witState1 (-1) = witState1 := by
  refine ⟨?_, ?_, by decide, ?_⟩
  · have h0 : ((0 : Int) % (UINT64_MOD : Int)).toNat = 0 := by decide
    simp only [cache_init, h0, BlockCache.init]
    norm_num [witStateEmpty, UINT64_MOD, BLOCK_SIZE]
  · have h1 : ((-1 : Int) % (UINT64_MOD : Int)).toNat = 2 ^ 64 - 1 := by decide
    simp only [cache_init, h1, BlockCache.init]
    norm_num [witStateEmpty, UINT64_MOD, BLOCK_SIZE]
  · exact init_nonempty_noop witState1 (by decide) _

/-! ### C2: adaptive timeout bounds -/

theorem adjust_on_success_bounds {T : Nat} (h1 : 2 ≤ T) (h2 : T ≤ 21) (ms : Nat) :
    2 ≤ adjust_on_success T ms ∧ adjust_on_success T ms ≤ 21 := by
  unfold adjust_on_success
  by_cases h : ms < T / 2 ∧ 2 < T
  · rw [if_pos h]; omega
  · rw [if_neg h]; omega

theorem adjust_on_timeout_bounds {T : Nat} (h1 : 2 ≤ T) (h2 : T ≤ 21) :
    2 ≤ adjust_on_timeout T ∧ adjust_on_timeout T ≤ 21 := by
  unfold adjust_on_timeout
  by_cases h : T < 20
  · rw [if_pos h]; omega
  · rw [if_neg h]; omega

theorem wait_adjust_bounds {T : Nat} (h1 : 2 ≤ T) (h2 : T ≤ 21) (e : WaitStep) :
    2 ≤ wait_adjust T e ∧ wait_adjust T e ≤ 21 := by
  cases e with
  | success ms => simpa [wait_adjust] using adjust_on_success_bounds h1 h2 ms
  | timeout => simpa [wait_adjust] using adjust_on_timeout_bounds h1 h2

theorem foldl_wait_adjust_bounds (l : List WaitStep) :
    ∀ T, 2 ≤ T → T ≤ 21 → 2 ≤ l.foldl wait_adjust T ∧ l.foldl wait_adjust T ≤ 21 := by
  induction l with
  | nil => intro T h1 h2; exact ⟨h1, h2⟩
  | cons e rest ih =>
    intro T h1 h2
    rw [List.foldl_cons]
    exact ih _ (wait_adjust_bounds h1 h2 e).1 (wait_adjust_bounds h1 h2 e).2

/-- C2 counterexample: eight timeouts raise the timeout from 4 to 20, a fast
successful wait decrements it to 19, and one more timeout (19 < 20, so the
guard fires) lands on 21, outside the claimed interval [2, 20]. -/
theorem c2_counterexample :
    run_waits [WaitStep.timeout, WaitStep.timeout, WaitStep.timeout, WaitStep.timeout,
      WaitStep.timeout, WaitStep.timeout, WaitStep.timeout, WaitStep.timeout,
      WaitStep.success 0, WaitStep.timeout] = 21 ∧ ¬((21 : Nat) ≤ 20) :=
  ⟨by decide, by decide⟩

/-- C2 amended: starting from 4, after any sequence of read-path waits the
adaptive timeout lies in [2, 21]; the increment guard `T < 20` admits 19 + 2,
so 21 (not 20) is the tight upper bound. -/
theorem c2_timeout_bounds (l : List WaitStep) :
    2 ≤ run_waits l ∧ run_waits l ≤ 21 :=
  foldl_wait_adjust_bounds l g_adaptive_timeout_init (by decide) (by decide)

/-! ### C7: zero-length reads -/

/-- C7 counterexample: a `retro_vfs_read` of length 0 returns the error
sentinel -1, not 0 (the final `total_read > 0` test fails and the function
falls through to `return -1`). -/
theorem c7_counterexample :
    (retro_vfs_read 4 witFile witState1 0 [] 0 fun _ => 0).res = -1 ∧
    ((-1 : Int) ≠ 0) := ⟨rfl, by decide⟩

/-- C7 amended: for every handle, cache state, wait schedule and sync-read
outcome, a read of length 0 performs no cache operation and leaves the cache,
the file offset and the adaptive timeout unchanged, but returns -1 (the
no-progress sentinel), not 0. -/
theorem c7_zero_length_read (T : Nat) (f : FileHandle) (st : CacheState)
    (events : List WaitOutcome) (sync_res : Int) (sync_data : Nat → Nat) :
    retro_vfs_read T f st 0 events sync_res sync_data = ⟨-1, f, st, T⟩ := by
  have hloop : readLoop f.offset 0 0 T st events = ⟨st, T, 0⟩ := by
    cases events with
    | nil => simp [readLoop, readIter]
    | cons e rest => simp [readLoop, readIter]
  simp [retro_vfs_read, hloop]

/-! ### C9: which timed-out waits adjust the timeout -/

/-- C9 counterexample: with the adaptive timeout at 4 and an empty cache, a
1-byte read whose wait on the missing first block times out leaves the
timeout at 4, not 6: the first-block-missing branch of the read loop performs
no adjustment. -/
theorem c9_counterexample :
    (retro_vfs_read 4 witFile witStateEmpty 1 [WaitOutcome.timedOut] 0
      fun _ => 0).timeout_ms = 4 ∧ (4 : Nat) ≠ 6 := ⟨rfl, by decide⟩

/-- C9 amended: a timed-out wait in the partial-progress branch (`res > 0`,
some bytes already copied) increases the adaptive timeout by 2 when it is
below 20, but a timed-out wait in the first-block-missing branch (`res <= 0`,
in particular when the very first block of the request is absent) leaves the
timeout unchanged. -/
theorem c9_timeout_adjustment (T : Nat) (st : CacheState) (off len : Nat)
    (hT : T < 20) :
    (∀ st' total2 missing,
      readIter off len 0 st = IterStep.waitPartial st' total2 missing →
      (readLoop off len 0 T st [WaitOutcome.timedOut]).timeout_ms = T + 2) ∧
    (∀ st' missing,
      readIter off len 0 st = IterStep.waitMiss st' missing →
      (readLoop off len 0 T st [WaitOutcome.timedOut]).timeout_ms = T) := by
  constructor
  · intro st' total2 missing h
    simp [readLoop, h, adjust_on_timeout, hT]
  · intro st' missing h
    simp [readLoop, h]

/-- Witness for C9: at timeout 4 (< 20), a 1-byte read at offset 0 against
`witState1` (block 0 absent) takes the first-block-missing branch and a
timed-out wait leaves the timeout at 4. -/
theorem c9_timeout_adjustment_witness :
    (4 < 20) ∧
    (readLoop 0 1 0 4 witState1 [WaitOutcome.timedOut]).timeout_ms = 4 :=
  ⟨by decide, (c9_timeout_adjustment 4 witState1 0 1 (by decide)).2 witState1 0 rfl⟩

/-! ### C4: a put on an already-valid block writes nothing -/

theorem present_false_lookup {st : CacheState} {b : Nat} (h : present st b = false) :
    lookupId st.id_to_slot b = none := by
  cases hl : lookupId st.id_to_slot b with
  | none => rfl
  | some i => rw [present, hl] at h; simp at h

theorem evict_lru_of_nonempty (st : CacheState) (hne : 0 < st.slots.length)
    (hacc : ∀ s ∈ st.slots, s.last_access < UINT64_MAX) :
    ∃ v st', evict_lru st = (some v, st') ∧ v < st'.slots.length ∧
      st'.slots.length = st.slots.length := by
  cases hfi : find_invalid st.slots 0 with
  | some i =>
    obtain ⟨heq, hil, _⟩ := evict_lru_invalid hfi
    exact ⟨i, st, heq, hil, rfl⟩
  | none =>
    obtain ⟨v, hvl, heq, _⟩ := evict_lru_all_valid st hfi hne hacc
    exact ⟨v, _, heq, by simpa [List.length_set] using hvl, by simp [List.length_set]⟩

/-- C4: for every block id `b` absent from a cache with at least one slot
(and counter-produced `last_access` stamps), `put(b, d1, len1)` followed by
`put(b, d2, len2)` leaves the cache holding `d1`'s bytes for `b`: the second
put sees `b` already valid and returns without writing anything, and the slot
holds the first `min(len1, B)` bytes of `d1` zero-padded to a full block. -/
theorem c4_put_idempotent (st : CacheState) (b len1 len2 : Nat) (d1 d2 : Nat → Nat)
    (habs : present st b = false)
    (hne : 0 < st.slots.length)
    (hacc : ∀ s ∈ st.slots, s.last_access < UINT64_MAX) :
    put_block (put_block st b (some d1) len1) b (some d2) len2 =
      put_block st b (some d1) len1 ∧
    ∃ i, lookupId (put_block st b (some d1) len1).id_to_slot b = some i ∧
      (slotAt (put_block st b (some d1) len1) i).data =
        fun j => if j < min len1 BLOCK_SIZE then d1 j else 0 := by
  have hnone : lookupId st.id_to_slot b = none := present_false_lookup habs
  have hb : ¬((lookupId st.id_to_slot b).isSome = true) := by simp [hnone]
  obtain ⟨v, st', heq, hvl, hlen⟩ := evict_lru_of_nonempty st hne hacc
  have hput : put_block st b (some d1) len1 =
      { st' with
        slots := st'.slots.set v
          { data := fun j => if j < min len1 BLOCK_SIZE then d1 j else 0,
            block_id := b, valid := true,
            last_access := (st'.access_counter + 1) % UINT64_MOD },
        access_counter := (st'.access_counter + 1) % UINT64_MOD,
        id_to_slot := insertId st'.id_to_slot b v } := by
    simp [put_block, hb, heq]
  refine ⟨?_, v, ?_, ?_⟩
  · rw [hput]
    have : lookupId (insertId st'.id_to_slot b v) b = some v := lookupId_insertId_self _ _ _
    simp [put_block, this]
  · rw [hput]
    exact lookupId_insertId_self _ _ _
  · rw [hput]
    show ((st'.slots.set v _).getD v default).data = _
    rw [getD_set_self _ _ _ hvl]

/-- Witness for C4: block 3 is absent from `witState1`; two successive puts of
different payloads leave the first payload in place. -/
theorem c4_put_idempotent_witness :
    (present witState1 3 = false ∧ 0 < witState1.slots.length ∧
      ∀ s ∈ witState1.slots, s.last_access < UINT64_MAX) ∧
    (put_block (put_block witState1 3 (some fun _ => 5) 4) 3 (some fun _ => 6) 4 =
      put_block witState1 3 (some fun _ => 5) 4 ∧
    ∃ i, lookupId (put_block witState1 3 (some fun _ => 5) 4).id_to_slot 3 = some i ∧
      (slotAt (put_block witState1 3 (some fun _ => 5) 4) i).data =
        fun j => if j < min 4 BLOCK_SIZE then (fun _ => 5) j else 0) :=
  ⟨⟨by decide, by decide, by decide⟩,
   c4_put_idempotent witState1 3 4 4 (fun _ => 5) (fun _ => 6)
     (by decide) (by decide) (by decide)⟩

/-! ### C5: a delivered write invalidates every intersecting block -/

theorem present_invalidate_self (st : CacheState) (b : Nat) :
    present (invalidate_block st b) b = false := by
  unfold invalidate_block
  cases h : lookupId st.id_to_slot b with
  | some i => simp [present, lookupId_eraseId_self]
  | none => simp [present, h]

theorem present_invalidate_mono {st : CacheState} {b : Nat} (b' : Nat)
    (h : present st b = false) : present (invalidate_block st b') b = false := by
  have hn : lookupId st.id_to_slot b = none := present_false_lookup h
  unfold invalidate_block
  cases h' : lookupId st.id_to_slot b' with
  | some i => simp [present, lookupId_eraseId_none _ hn]
  | none => simpa [present] using h

theorem invalidate_range_pres_absent : ∀ (k s : Nat) (st : CacheState) (b : Nat),
    present st b = false → present (invalidate_range k s st) b = false := by
  intro k
  induction k with
  | zero => intro s st b h; exact h
  | succ k ih =>
    intro s st b h
    exact ih (s + 1) (invalidate_block st s) b (present_invalidate_mono s h)

theorem invalidate_range_absent : ∀ (k s : Nat) (st : CacheState) (b : Nat),
    s ≤ b → b < s + k → present (invalidate_range k s st) b = false := by
  intro k
  induction k with
  | zero => intro s st b h1 h2; omega
  | succ k ih =>
    intro s st b h1 h2
    by_cases hb : b = s
    · subst hb
      exact invalidate_range_pres_absent k (b + 1) (invalidate_block st b) b
        (present_invalidate_self st b)
    · exact ih (s + 1) (invalidate_block st s) b (by omega) (by omega)

theorem u64_pred_eq {x : Nat} (h1 : 1 ≤ x) (h2 : x < UINT64_MOD) : u64_pred x = x - 1 := by
  unfold u64_pred
  rw [Nat.mod_eq_of_lt h2]
  have h3 : x + UINT64_MOD - 1 = (x - 1) + UINT64_MOD := by omega
  rw [h3, Nat.add_mod_right, Nat.mod_eq_of_lt (by omega)]

/-- C5: a VFS write whose transport delivers `n > 0` bytes at offset `o`
(no `uint64` wrap, i.e. `o + n < 2^64`) invalidates every cache block whose
128 KiB span intersects `[o, o + n)` — each such block is absent afterwards —
and advances the file offset by `n`; a write reported as delivering zero or a
negative count leaves the handle and the cache unchanged. -/
theorem c5_write_invalidates (f : FileHandle) (st : CacheState) (len : Nat) (res : Int)
    (hov : f.offset + res.toNat < UINT64_MOD) :
    (0 < res →
      (∀ b, b * BLOCK_SIZE < f.offset + res.toNat →
            f.offset < (b + 1) * BLOCK_SIZE →
        present (retro_vfs_write f st len res).state b = false) ∧
      (retro_vfs_write f st len res).file.offset = f.offset + res.toNat ∧
      (retro_vfs_write f st len res).res = res) ∧
    (res ≤ 0 → retro_vfs_write f st len res = ⟨res, f, st⟩) := by
  constructor
  · intro hres
    have hn : 0 < res.toNat := by omega
    have hB : 0 < BLOCK_SIZE := by norm_num [BLOCK_SIZE]
    have hwr : retro_vfs_write f st len res =
        ⟨res, { f with offset := (f.offset + res.toNat) % UINT64_MOD },
          invalidate_range
            (u64_pred (f.offset + res.toNat) / BLOCK_SIZE + 1 - f.offset / BLOCK_SIZE)
            (f.offset / BLOCK_SIZE) st⟩ := by
      simp [retro_vfs_write, hres]
    refine ⟨?_, ?_, ?_⟩
    · intro b hb1 hb2
      rw [hwr]
      have hend : u64_pred (f.offset + res.toNat) = f.offset + res.toNat - 1 :=
        u64_pred_eq (by omega) hov
      rw [hend]
      apply invalidate_range_absent
      · -- f.offset / B ≤ b, from f.offset < (b+1) * B
        have : f.offset / BLOCK_SIZE < b + 1 :=
          (Nat.div_lt_iff_lt_mul hB).mpr hb2
        omega
      · -- b < start + (end + 1 - start), from b ≤ end = (o+n-1)/B
        have hble : b ≤ (f.offset + res.toNat - 1) / BLOCK_SIZE :=
          (Nat.le_div_iff_mul_le hB).mpr (by omega)
        have hse : f.offset / BLOCK_SIZE ≤ (f.offset + res.toNat - 1) / BLOCK_SIZE :=
          Nat.div_le_div_right (by omega)
        omega
    · rw [hwr]
      exact Nat.mod_eq_of_lt hov
    · rw [hwr]
  · intro hres
    have : ¬(0 < res) := by omega
    simp [retro_vfs_write, this]

/-- Witness for C5: one byte delivered at offset 0 against `witState1`. -/
theorem c5_write_invalidates_witness :
    (witFile.offset + (1 : Int).toNat < UINT64_MOD) ∧
    ((0 < (1 : Int) →
      (∀ b, b * BLOCK_SIZE < witFile.offset + (1 : Int).toNat →
            witFile.offset < (b + 1) * BLOCK_SIZE →
        present (retro_vfs_write witFile witState1 1 1).state b = false) ∧
      (retro_vfs_write witFile witState1 1 1).file.offset =
        witFile.offset + (1 : Int).toNat ∧
      (retro_vfs_write witFile witState1 1 1).res = 1) ∧
    ((1 : Int) ≤ 0 → retro_vfs_write witFile witState1 1 1 = ⟨1, witFile, witState1⟩)) :=
  ⟨by decide, c5_write_invalidates witFile witState1 1 1 (by decide)⟩

/-! ### C6: all cache operations preserve the exclusive-mapping invariant -/

theorem getD_set_cases {α : Type} [Inhabited α] (l : List α) (i j : Nat) (a : α) :
    (l.set i a).getD j default = l.getD j default ∨
      (i = j ∧ i < l.length ∧ (l.set i a).getD j default = a) := by
  by_cases hij : i = j
  · subst hij
    by_cases hl : i < l.length
    · exact Or.inr ⟨rfl, hl, getD_set_self l i a hl⟩
    · rw [List.set_eq_of_length_le (Nat.le_of_not_lt hl)]
      exact Or.inl rfl
  · exact Or.inl (getD_set_ne l a hij)

theorem WF_set_last_access {st : CacheState} (h : WF st) (i c c' : Nat) :
    WF { st with slots := st.slots.set i { slotAt st i with last_access := c },
                 access_counter := c' } := by
  set st' : CacheState :=
    { st with slots := st.slots.set i { slotAt st i with last_access := c },
              access_counter := c' } with hst'
  have hlen : st'.slots.length = st.slots.length := List.length_set _ _ _
  have hslot : ∀ j, (slotAt st' j).valid = (slotAt st j).valid ∧
      (slotAt st' j).block_id = (slotAt st j).block_id := by
    intro j
    rcases getD_set_cases st.slots i j { slotAt st i with last_access := c } with hc | ⟨hij, _, hc⟩
    · rw [show slotAt st' j = (st.slots.set i _).getD j default from rfl, hc]
      exact ⟨rfl, rfl⟩
    · subst hij
      rw [show slotAt st' i = (st.slots.set i _).getD i default from rfl, hc]
      exact ⟨rfl, rfl⟩
  constructor
  · intro p hp
    obtain ⟨h1, h2, h3⟩ := h.1 p hp
    exact ⟨by omega, by rw [(hslot p.2).1]; exact h2, by rw [(hslot p.2).2]; exact h3⟩
  · intro j hj hv
    have hj' : j < st.slots.length := by omega
    have hv' : (slotAt st j).valid = true := by rw [← (hslot j).1]; exact hv
    rw [(hslot j).2]
    exact h.2 j hj' hv'

theorem WF_read_blocks (offset len start : Nat) :
    ∀ (fuel b copied : Nat) (acc : List Nat) (st : CacheState), WF st →
      WF (read_blocks offset len start fuel b copied acc st).2.2.2 := by
  intro fuel
  induction fuel with
  | zero => intro b copied acc st h; exact h
  | succ fuel ih =>
    intro b copied acc st h
    simp only [read_blocks]
    cases hl : lookupId st.id_to_slot b with
    | none => exact h
    | some i => exact ih _ _ _ _ (WF_set_last_access h i _ _)

theorem WF_read {st : CacheState} (h : WF st) (offset len : Nat) :
    WF (BlockCache.read st offset len).state := by
  unfold BlockCache.read
  by_cases he : st.id_to_slot.isEmpty
  · simp only [he, if_true]
    exact h
  · simp only [he, if_false, Bool.false_eq_true]
    rcases hrb : read_blocks offset len (offset / BLOCK_SIZE)
        (u64_pred (offset + len) / BLOCK_SIZE + 1 - offset / BLOCK_SIZE)
        (offset / BLOCK_SIZE) 0 [] st with ⟨m, bytes, copied, st'⟩
    have hwf := WF_read_blocks offset len (offset / BLOCK_SIZE)
      (u64_pred (offset + len) / BLOCK_SIZE + 1 - offset / BLOCK_SIZE)
      (offset / BLOCK_SIZE) 0 [] st h
    rw [hrb] at hwf
    cases m <;> simpa using hwf

theorem WF_get_block_ptr {st : CacheState} (h : WF st) (b : Nat) :
    WF (get_block_ptr st b).2 := by
  unfold get_block_ptr
  cases hl : lookupId st.id_to_slot b with
  | none => exact h
  | some i => exact WF_set_last_access h i _ _

theorem WF_invalidate_slot {st : CacheState} (h : WF st) (v : Nat)
    (hv : v < st.slots.length) (hvv : (slotAt st v).valid = true) :
    WF { st with slots := st.slots.set v { slotAt st v with valid := false },
                 id_to_slot := eraseId st.id_to_slot ((slotAt st v).block_id) } := by
  have hlookv : lookupId st.id_to_slot ((slotAt st v).block_id) = some v := h.2 v hv hvv
  have hsl : ∀ j, j ≠ v →
      (st.slots.set v { slotAt st v with valid := false }).getD j default =
        st.slots.getD j default :=
    fun j hj => getD_set_ne _ _ (fun hc => hj hc.symm)
  constructor
  · intro p hp
    obtain ⟨hpm, hpb⟩ := mem_eraseId hp
    obtain ⟨h1, h2, h3⟩ := h.1 p hpm
    have hpv : p.2 ≠ v := by
      intro hc
      apply hpb
      rw [← h3, hc]
    refine ⟨by simpa [List.length_set] using h1, ?_, ?_⟩
    · show ((st.slots.set v _).getD p.2 default).valid = true
      rw [hsl p.2 hpv]
      exact h2
    · show ((st.slots.set v _).getD p.2 default).block_id = p.1
      rw [hsl p.2 hpv]
      exact h3
  · intro j hj hv'
    have hj' : j < st.slots.length := by simpa [List.length_set] using hj
    by_cases hjv : j = v
    · subst hjv
      exfalso
      have hgot : ((st.slots.set j { slotAt st j with valid := false }).getD j
          default).valid = true := hv'
      rw [getD_set_self _ _ _ hj'] at hgot
      simp at hgot
    · have hgj : ((st.slots.set v { slotAt st v with valid := false }).getD j default) =
          slotAt st j := hsl j hjv
      have hv2 : (slotAt st j).valid = true := by
        have : ((st.slots.set v { slotAt st v with valid := false }).getD j
            default).valid = true := hv'
        rwa [hgj] at this
      have hjj := h.2 j hj' hv2
      have hne : (slotAt st j).block_id ≠ (slotAt st v).block_id := by
        intro hc
        rw [hc, hlookv] at hjj
        exact hjv (by simpa using hjj.symm)
      show lookupId (eraseId st.id_to_slot ((slotAt st v).block_id))
        (((st.slots.set v { slotAt st v with valid := false }).getD j default).block_id) =
          some j
      rw [hgj, lookupId_eraseId_ne _ hne]
      exact hjj

theorem WF_insert_slot {st : CacheState} (h : WF st) {v b : Nat}
    (hv : v < st.slots.length)
    (hbnone : lookupId st.id_to_slot b = none)
    (hsrc : ∀ p ∈ st.id_to_slot, p.2 ≠ v)
    (newSlot : Slot) (hnv : newSlot.valid = true) (hnb : newSlot.block_id = b) (c' : Nat) :
    WF { st with slots := st.slots.set v newSlot, access_counter := c',
                 id_to_slot := insertId st.id_to_slot b v } := by
  have hsl : ∀ j, j ≠ v →
      (st.slots.set v newSlot).getD j default = st.slots.getD j default :=
    fun j hj => getD_set_ne _ _ (fun hc => hj hc.symm)
  have hslv : (st.slots.set v newSlot).getD v default = newSlot := getD_set_self _ _ _ hv
  constructor
  · intro p hp
    rcases mem_insertId hp with hpe | ⟨hpm, hpb⟩
    · subst hpe
      refine ⟨by simpa [List.length_set] using hv, ?_, ?_⟩
      · show ((st.slots.set v newSlot).getD v default).valid = true
        rw [hslv]
        exact hnv
      · show ((st.slots.set v newSlot).getD v default).block_id = b
        rw [hslv]
        exact hnb
    · obtain ⟨h1, h2, h3⟩ := h.1 p hpm
      have hpv : p.2 ≠ v := hsrc p hpm
      refine ⟨by simpa [List.length_set] using h1, ?_, ?_⟩
      · show ((st.slots.set v newSlot).getD p.2 default).valid = true
        rw [hsl p.2 hpv]
        exact h2
      · show ((st.slots.set v newSlot).getD p.2 default).block_id = p.1
        rw [hsl p.2 hpv]
        exact h3
  · intro j hj hv'
    have hj' : j < st.slots.length := by simpa [List.length_set] using hj
    by_cases hjv : j = v
    · subst hjv
      show lookupId (insertId st.id_to_slot b j)
        (((st.slots.set j newSlot).getD j default).block_id) = some j
      rw [hslv, hnb]
      exact lookupId_insertId_self _ _ _
    · have hgj : (st.slots.set v newSlot).getD j default = slotAt st j := hsl j hjv
      have hv2 : (slotAt st j).valid = true := by
        have hx : ((st.slots.set v newSlot).getD j default).valid = true := hv'
        rwa [hgj] at hx
      have hjj := h.2 j hj' hv2
      have hne : (slotAt st j).block_id ≠ b := by
        intro hc
        rw [hc, hbnone] at hjj
        exact Option.noConfusion hjj
      show lookupId (insertId st.id_to_slot b v)
        (((st.slots.set v newSlot).getD j default).block_id) = some j
      rw [hgj, lookupId_insertId_ne _ _ hne]
      exact hjj

theorem lru_scan_none_cases (l : List Slot) : ∀ i m,
    lru_scan l i m none = (m, none) ∨ (lru_scan l i m none).1 < m := by
  induction l with
  | nil => intro i m; exact Or.inl rfl
  | cons s rest ih =>
    intro i m
    simp only [lru_scan]
    by_cases hl : s.last_access < m
    · rw [if_pos hl]
      exact Or.inr
        (lt_of_le_of_lt (lru_scan_min_le rest (i + 1) s.last_access (some i)) hl)
    · rw [if_neg hl]
      exact ih (i + 1) m

theorem WF_put_block {st : CacheState} (h : WF st) (b : Nat)
    (data : Option (Nat → Nat)) (len : Nat) : WF (put_block st b data len) := by
  by_cases hb : (lookupId st.id_to_slot b).isSome = true
  · simpa [put_block, hb] using h
  · have hbnone : lookupId st.id_to_slot b = none := Option.not_isSome_iff_eq_none.mp hb
    cases hfi : find_invalid st.slots 0 with
    | some i =>
      obtain ⟨heq, hil, hiv⟩ := evict_lru_invalid hfi
      have hsrc : ∀ p ∈ st.id_to_slot, p.2 ≠ i := by
        intro p hp hpi
        have h2 := (h.1 p hp).2.1
        rw [hpi, hiv] at h2
        exact Bool.noConfusion h2
      simp only [put_block, hb, if_false, heq]
      exact WF_insert_slot h hil hbnone hsrc _ rfl rfl _
    | none =>
      cases hsc : (lru_scan st.slots 0 UINT64_MAX none).2 with
      | none =>
        have heq : evict_lru st = (none, st) := by
          simp [evict_lru, hfi, hsc]
        simpa [put_block, hb, heq] using h
      | some v =>
        have hlt : (lru_scan st.slots 0 UINT64_MAX none).1 < UINT64_MAX := by
          rcases lru_scan_none_cases st.slots 0 UINT64_MAX with hcase | hcase
          · rw [hcase] at hsc
            exact Option.noConfusion hsc
          · exact hcase
        rcases lru_scan_lt st.slots 0 UINT64_MAX none hlt with ⟨j, hj, hvic, ha⟩
        have hvj : v = j := by
          rw [hvic] at hsc
          simpa using hsc.symm
        subst hvj
        have hall : ∀ s ∈ st.slots, s.valid = true := find_invalid_none hfi
        have hvv : (slotAt st v).valid = true := hall _ (getD_mem hj)
        have heq : evict_lru st = (some v, { st with
            id_to_slot := eraseId st.id_to_slot ((slotAt st v).block_id),
            slots := st.slots.set v { slotAt st v with valid := false } }) := by
          simp only [evict_lru, hfi]
          rw [hvic]
          norm_num
        have h2 : WF { st with
            slots := st.slots.set v { slotAt st v with valid := false },
            id_to_slot := eraseId st.id_to_slot ((slotAt st v).block_id) } :=
          WF_invalidate_slot h v hj hvv
        have hb2 : lookupId (eraseId st.id_to_slot ((slotAt st v).block_id)) b = none :=
          lookupId_eraseId_none _ hbnone
        have hsrc2 : ∀ p ∈ eraseId st.id_to_slot ((slotAt st v).block_id), p.2 ≠ v := by
          intro p hp hpv
          obtain ⟨hpm, hpb⟩ := mem_eraseId hp
          obtain ⟨_, _, h3⟩ := h.1 p hpm
          apply hpb
          rw [← h3, hpv]
        have hv2 : v < (st.slots.set v { slotAt st v with valid := false }).length := by
          simpa [List.length_set] using hj
        simp only [put_block, hb, if_false, heq]
        exact WF_insert_slot h2 hv2 hb2 hsrc2 _ rfl rfl _

theorem WF_invalidate {st : CacheState} (h : WF st) (b : Nat) :
    WF (invalidate_block st b) := by
  cases hl : lookupId st.id_to_slot b with
  | none => simpa [invalidate_block, hl] using h
  | some i =>
    obtain ⟨h1, h2, h3⟩ := h.1 (b, i) (mem_of_lookupId hl)
    have h1' : i < st.slots.length := h1
    have h2' : (slotAt st i).valid = true := h2
    have h3' : (slotAt st i).block_id = b := h3
    have hgoal : invalidate_block st b = { st with
        slots := st.slots.set i { slotAt st i with valid := false },
        id_to_slot := eraseId st.id_to_slot b } := by
      simp [invalidate_block, hl]
    rw [hgoal, ← h3']
    exact WF_invalidate_slot h i h1' h2' 

theorem getD_replicate {α : Type} [Inhabited α] (n j : Nat) :
    (List.replicate n (default : α)).getD j default = default := by
  rcases hx : (List.replicate n (default : α))[j]? with _ | a
  · rw [List.getD_eq_getElem?_getD, hx]
    rfl
  · rw [List.getD_eq_getElem?_getD, hx]
    simpa using List.eq_of_mem_replicate (List.getElem?_mem hx)

theorem WF_init {st : CacheState} (h : WF st) (c : Nat) : WF (BlockCache.init st c) := by
  by_cases he : st.slots.isEmpty = true
  · have hnil : st.slots = [] := List.isEmpty_iff.mp he
    simp only [BlockCache.init, he, if_true]
    constructor
    · intro p hp
      exfalso
      have h1 := (h.1 p hp).1
      rw [hnil] at h1
      simp at h1
    · intro j hj hv
      exfalso
      have hdef : (slotAt { st with
          slots := List.replicate
            ((if c ≤ 0 then 64 else c) * 1024 * 1024 % UINT64_MOD / BLOCK_SIZE)
            (default : Slot),
          capacity_slots :=
            (if c ≤ 0 then 64 else c) * 1024 * 1024 % UINT64_MOD / BLOCK_SIZE } j) =
          default := getD_replicate _ _
      rw [hdef] at hv
      exact absurd hv (by decide)
  · simpa [BlockCache.init, he] using h

/-- C6: every cache operation — `init`, `put`, `invalidate`, the multi-block
`read`, `get_ptr` and `wait_for` — preserves the exclusive-mapping invariant
(each mapped id points at a valid slot carrying it, and each valid slot's id
maps back to its index), and consequently at most one slot is valid for any
given block id. -/
theorem c6_exclusive_mapping (st : CacheState) (h : WF st) :
    (∀ c, WF (BlockCache.init st c)) ∧
    (∀ b data len, WF (put_block st b data len)) ∧
    (∀ b, WF (invalidate_block st b)) ∧
    (∀ offset len, WF (BlockCache.read st offset len).state) ∧
    (∀ b, WF (get_block_ptr st b).2) ∧
    (∀ b t, WF (wait_for_block st b t).2) ∧
    (∀ i j, i < st.slots.length → j < st.slots.length →
      (slotAt st i).valid = true → (slotAt st j).valid = true →
      (slotAt st i).block_id = (slotAt st j).block_id → i = j) := by
  refine ⟨fun c => WF_init h c, fun b data len => WF_put_block h b data len,
    fun b => WF_invalidate h b, fun offset len => WF_read h offset len,
    fun b => WF_get_block_ptr h b, fun b t => h, ?_⟩
  intro i j hi hj hvi hvj hbij
  have h1 := h.2 i hi hvi
  have h2 := h.2 j hj hvj
  rw [hbij, h2] at h1
  simpa using h1.symm

/-- Witness for C6 at the concrete well-formed cache `witState1`. -/
theorem c6_exclusive_mapping_witness :
    WF witState1 ∧
    ((∀ c, WF (BlockCache.init witState1 c)) ∧
    (∀ b data len, WF (put_block witState1 b data len)) ∧
    (∀ b, WF (invalidate_block witState1 b)) ∧
    (∀ offset len, WF (BlockCache.read witState1 offset len).state) ∧
    (∀ b, WF (get_block_ptr witState1 b).2) ∧
    (∀ b t, WF (wait_for_block witState1 b t).2) ∧
    (∀ i j, i < witState1.slots.length → j < witState1.slots.length →
      (slotAt witState1 i).valid = true → (slotAt witState1 j).valid = true →
      (slotAt witState1 i).block_id = (slotAt witState1 j).block_id → i = j)) :=
  ⟨by decide, c6_exclusive_mapping witState1 (by decide)⟩

/-! ### C1: the multi-block cache read -/

theorem present_run_le (st : CacheState) : ∀ k b, present_run st b k ≤ k := by
  intro k
  induction k with
  | zero => intro b; simp [present_run]
  | succ k ih =>
    intro b
    by_cases hp : present st b = true
    · simp only [present_run, hp, if_true]
      exact Nat.succ_le_succ (ih (b + 1))
    · simp [present_run, hp]

theorem present_run_pres (st : CacheState) :
    ∀ k b j, j < present_run st b k → present st (b + j) = true := by
  intro k
  induction k with
  | zero => intro b j h; simp [present_run] at h
  | succ k ih =>
    intro b j h
    by_cases hp : present st b = true
    · cases j with
      | zero => simpa using hp
      | succ j =>
        simp only [present_run, hp, if_true] at h
        have := ih (b + 1) j (by omega)
        have harr : b + 1 + j = b + (j + 1) := by omega
        rwa [harr] at this
    · simp [present_run, hp] at h

theorem present_run_miss (st : CacheState) :
    ∀ k b, present_run st b k < k → present st (b + present_run st b k) = false := by
  intro k
  induction k with
  | zero => intro b h; omega
  | succ k ih =>
    intro b h
    by_cases hp : present st b = true
    · simp only [present_run, hp, if_true] at h ⊢
      have := ih (b + 1) (by omega)
      have harr : b + 1 + present_run st (b + 1) k = b + (present_run st (b + 1) k + 1) := by
        omega
      rwa [harr] at this
    · have hp' : present st b = false := by simpa using hp
      simp only [present_run, hp', if_false, Bool.false_eq_true]
      simpa [Nat.add_zero] using hp'

theorem present_run_congr {st' st : CacheState} (h : st'.id_to_slot = st.id_to_slot) :
    ∀ k b, present_run st' b k = present_run st b k := by
  intro k
  induction k with
  | zero => intro b; rfl
  | succ k ih =>
    intro b
    simp only [present_run, present, h]
    rw [ih (b + 1)]

theorem read_blocks_spec (offset len start endb : Nat)
    (hlen : 0 < len) (hov : offset + len ≤ UINT64_MOD)
    (hstart : start = offset / BLOCK_SIZE)
    (hend : endb = (offset + len - 1) / BLOCK_SIZE) :
    ∀ (fuel : Nat), ∀ (t c : Nat) (acc : List Nat) (st : CacheState),
      fuel = endb + 1 - (start + t) →
      ((t = 0 ∧ c = 0) ∨ (0 < t ∧ c + offset = (start + t) * BLOCK_SIZE)) →
      c < len →
      ∃ st' bytes,
        read_blocks offset len start fuel (start + t) c acc st =
          (((t == 0) && (present_run st (start + t) fuel == 0)),
            acc ++ bytes,
            min len ((start + t + present_run st (start + t) fuel) * BLOCK_SIZE - offset),
            st') ∧
        st'.id_to_slot = st.id_to_slot ∧
        bytes.length =
          min len ((start + t + present_run st (start + t) fuel) * BLOCK_SIZE - offset) - c := by
  intro fuel
  induction fuel with
  | zero =>
    intro t c acc st hfuel hinv hc
    have hse : start ≤ endb := by
      rw [hstart, hend]
      exact Nat.div_le_div_right (by omega)
    rcases hinv with ⟨ht, hc0⟩ | ⟨ht, hcv⟩
    · omega
    · refine ⟨st, [], ?_, rfl, ?_⟩
      · have ht0 : (t == 0) = false := by simp; omega
        have hmin : min len ((start + t + present_run st (start + t) 0) * BLOCK_SIZE - offset)
            = c := by
          simp only [present_run, Nat.add_zero]
          simp only [BLOCK_SIZE] at hcv ⊢
          omega
        rw [hmin, ht0]
        simp [read_blocks]
      · simp only [present_run, Nat.add_zero]
        have hmin : min len ((start + t) * BLOCK_SIZE - offset) = c := by
          simp only [BLOCK_SIZE] at hcv ⊢
          omega
        rw [hmin]
        simp
  | succ fuel ih =>
    intro t c acc st hfuel hinv hc
    have hBpos : 0 < BLOCK_SIZE := by norm_num [BLOCK_SIZE]
    have hse : start ≤ endb := by
      rw [hstart, hend]
      exact Nat.div_le_div_right (by omega)
    cases hl : lookupId st.id_to_slot (start + t) with
    | none =>
      have hpres : present st (start + t) = false := by simp [present, hl]
      have hrun : present_run st (start + t) (fuel + 1) = 0 := by
        simp [present_run, hpres]
      have hcmin : min len ((start + t + 0) * BLOCK_SIZE - offset) = c := by
        rcases hinv with ⟨ht, hc0⟩ | ⟨ht, hcv⟩
        · subst ht
          subst hc0
          simp only [Nat.add_zero, hstart]
          simp only [BLOCK_SIZE]
          omega
        · simp only [Nat.add_zero]
          simp only [BLOCK_SIZE] at hcv ⊢
          omega
      have hflag : (c == 0) = ((t == 0) && ((0 : Nat) == 0)) := by
        rcases hinv with ⟨ht, hc0⟩ | ⟨ht, hcv⟩
        · subst ht
          subst hc0
          rfl
        · have hcpos : 0 < c := by
            have hlt1 : offset < (start + t) * BLOCK_SIZE := by
              rw [hstart] at hcv ⊢
              simp only [BLOCK_SIZE] at hcv ⊢
              omega
            omega
          have h1 : (c == 0) = false := by simp; omega
          have h2 : (t == 0) = false := by simp; omega
          rw [h1, h2]
          rfl
      refine ⟨st, [], ?_, rfl, ?_⟩
      · simp only [read_blocks, hl]
        rw [hrun, hcmin, hflag]
        simp
      · rw [hrun, hcmin]
        simp
    | some i =>
      have hpres : present st (start + t) = true := by simp [present, hl]
      have hrun : present_run st (start + t) (fuel + 1) =
          present_run st (start + t + 1) fuel + 1 := by
        simp [present_run, hpres]
      have hc2 : c + min (BLOCK_SIZE - (if start + t = start then offset % BLOCK_SIZE else 0))
          (len - c) = min len ((start + t + 1) * BLOCK_SIZE - offset) := by
        rcases hinv with ⟨ht, hc0⟩ | ⟨ht, hcv⟩
        · subst ht
          subst hc0
          rw [if_pos (by omega), hstart]
          simp only [BLOCK_SIZE]
          omega
        · rw [if_neg (by omega)]
          rw [hstart] at hcv ⊢
          simp only [BLOCK_SIZE] at hcv ⊢
          omega
      by_cases hfull : min len ((start + t + 1) * BLOCK_SIZE - offset) = len
      · -- the request is satisfied at this block; the remaining fuel is 0
        have hge : offset + len ≤ (start + t + 1) * BLOCK_SIZE := by
          simp only [BLOCK_SIZE] at hfull ⊢
          omega
        have hendle : endb ≤ start + t := by
          rw [hend]
          simp only [BLOCK_SIZE] at hge ⊢
          omega
        have hfuel0 : fuel = 0 := by omega
        subst hfuel0
        have hrun0 : present_run st (start + t + 1) 0 = 0 := rfl
        refine ⟨{ st with
            slots := st.slots.set i
              { slotAt st i with last_access := (st.access_counter + 1) % UINT64_MOD },
            access_counter := (st.access_counter + 1) % UINT64_MOD },
          (List.range (min (BLOCK_SIZE -
              (if start + t = start then offset % BLOCK_SIZE else 0)) (len - c))).map
            (fun k => (slotAt st i).data
              ((if start + t = start then offset % BLOCK_SIZE else 0) + k)), ?_, rfl, ?_⟩
        · simp only [read_blocks, hl]
          rw [hrun, hrun0]
          have hflag : ((t == 0) && ((0 + 1 : Nat) == 0)) = false := by simp
          rw [hflag]
          have hcop : min len ((start + t + (0 + 1)) * BLOCK_SIZE - offset) = c +
              min (BLOCK_SIZE - (if start + t = start then offset % BLOCK_SIZE else 0))
                (len - c) := by
            simp only [Nat.zero_add]
            exact hc2.symm
          rw [hcop]
        · rw [hrun, hrun0]
          simp only [List.length_map, List.length_range, Nat.zero_add]
          omega
      · -- more blocks are needed: recurse
        have hc2lt : c + min (BLOCK_SIZE -
            (if start + t = start then offset % BLOCK_SIZE else 0)) (len - c) < len := by
          omega
        have hoff : offset ≤ (start + t + 1) * BLOCK_SIZE := by
          rw [hstart]
          simp only [BLOCK_SIZE]
          omega
        have hinv' : ((t + 1 = 0 ∧ c + min (BLOCK_SIZE -
              (if start + t = start then offset % BLOCK_SIZE else 0)) (len - c) = 0) ∨
            (0 < t + 1 ∧ (c + min (BLOCK_SIZE -
              (if start + t = start then offset % BLOCK_SIZE else 0)) (len - c)) + offset =
              (start + (t + 1)) * BLOCK_SIZE)) := by
          right
          refine ⟨by omega, ?_⟩
          show (c + min (BLOCK_SIZE -
            (if start + t = start then offset % BLOCK_SIZE else 0)) (len - c)) + offset =
            (start + t + 1) * BLOCK_SIZE
          omega
        have hfuel' : fuel = endb + 1 - (start + (t + 1)) := by omega
        obtain ⟨st'', bytes2, hres, hid, hblen⟩ :=
          ih (t + 1)
            (c + min (BLOCK_SIZE -
              (if start + t = start then offset % BLOCK_SIZE else 0)) (len - c))
            (acc ++ (List.range (min (BLOCK_SIZE -
                (if start + t = start then offset % BLOCK_SIZE else 0)) (len - c))).map
              (fun k => (slotAt st i).data
                ((if start + t = start then offset % BLOCK_SIZE else 0) + k)))
            { st with
              slots := st.slots.set i
                { slotAt st i with last_access := (st.access_counter + 1) % UINT64_MOD },
              access_counter := (st.access_counter + 1) % UINT64_MOD }
            hfuel' hinv' hc2lt
        have hidst : ({ st with
            slots := st.slots.set i
              { slotAt st i with last_access := (st.access_counter + 1) % UINT64_MOD },
            access_counter := (st.access_counter + 1) % UINT64_MOD } :
              CacheState).id_to_slot = st.id_to_slot := rfl
        have hcongr : present_run { st with
            slots := st.slots.set i
              { slotAt st i with last_access := (st.access_counter + 1) % UINT64_MOD },
            access_counter := (st.access_counter + 1) % UINT64_MOD }
            (start + (t + 1)) fuel = present_run st (start + (t + 1)) fuel :=
          present_run_congr hidst fuel (start + (t + 1))
        have harr2 : start + (t + 1) = start + t + 1 := rfl
        refine ⟨st'', (List.range (min (BLOCK_SIZE -
            (if start + t = start then offset % BLOCK_SIZE else 0)) (len - c))).map
              (fun k => (slotAt st i).data
                ((if start + t = start then offset % BLOCK_SIZE else 0) + k)) ++ bytes2,
          ?_, by rw [hid], ?_⟩
        · have hstep : read_blocks offset len start (fuel + 1) (start + t) c acc st =
              read_blocks offset len start fuel (start + t + 1)
                (c + min (BLOCK_SIZE -
                  (if start + t = start then offset % BLOCK_SIZE else 0)) (len - c))
                (acc ++ (List.range (min (BLOCK_SIZE -
                    (if start + t = start then offset % BLOCK_SIZE else 0)) (len - c))).map
                  (fun k => (slotAt st i).data
                    ((if start + t = start then offset % BLOCK_SIZE else 0) + k)))
                { st with
                  slots := st.slots.set i
                    { slotAt st i with last_access := (st.access_counter + 1) % UINT64_MOD },
                  access_counter := (st.access_counter + 1) % UINT64_MOD } := by
            simp only [read_blocks, hl]
          rw [hstep]
          refine hres.trans ?_
          rw [hcongr, hrun, harr2]
          have harith : start + t + 1 + present_run st (start + t + 1) fuel =
              start + t + (present_run st (start + t + 1) fuel + 1) := by omega
          rw [harith, List.append_assoc]
          simp
        · rw [hrun]
          rw [hcongr, harr2] at hblen
          have harith : start + t + 1 + present_run st (start + t + 1) fuel =
              start + t + (present_run st (start + t + 1) fuel + 1) := by omega
          rw [harith] at hblen
          rw [List.length_append, List.length_map, List.length_range, hblen]
          have hm1 : c + min (BLOCK_SIZE -
              (if start + t = start then offset % BLOCK_SIZE else 0)) (len - c) ≤
              min len ((start + t + (present_run st (start + t + 1) fuel + 1)) *
                BLOCK_SIZE - offset) := by
            rw [hc2]
            have hmono : (start + t + 1) * BLOCK_SIZE ≤
                (start + t + (present_run st (start + t + 1) fuel + 1)) * BLOCK_SIZE :=
              Nat.mul_le_mul_right _ (by omega)
            omega
          omega

theorem u64_pred_le {x : Nat} (h1 : 1 ≤ x) (h2 : x ≤ UINT64_MOD) : u64_pred x = x - 1 := by
  rcases Nat.lt_or_ge x UINT64_MOD with h | h
  · exact u64_pred_eq h1 h
  · have hM : 0 < UINT64_MOD := by norm_num [UINT64_MOD]
    have hx : x = UINT64_MOD := le_antisymm h2 h
    subst hx
    unfold u64_pred
    rw [Nat.mod_self, Nat.zero_add, Nat.mod_eq_of_lt (by omega)]

theorem int32_cast_eq {n : Nat} (h : n < 2 ^ 31) : int32_cast n = (n : Int) := by
  unfold int32_cast
  omega

/-- C1 amended: for every cache state, byte offset and length with `len > 0`,
no `uint64` wrap in `offset + len - 1` (`offset + len ≤ 2^64`) and no `int`
wrap in the returned count (`len < 2^31`), `BlockCache::read` returns the MISS
sentinel -1 exactly when the first needed block `offset / B` is absent, and
then nothing was copied; otherwise, writing `run` for the number of
consecutively present blocks from `offset / B` within the request, it copies
the present blocks in increasing order (`min(len, (start + run)·B − offset)`
bytes in total, i.e. `min(B − block_offset, len − copied)` per block), stops
at the first absent block, and returns the total copied: `copied = len` on a
full hit and `0 < copied < len` on a partial hit. -/
theorem c1_read_amended (st : CacheState) (offset len : Nat)
    (hlen : 0 < len) (hov : offset + len ≤ UINT64_MOD) (hcast : len < 2 ^ 31) :
    ((BlockCache.read st offset len).res = -1 ↔
      present st (offset / BLOCK_SIZE) = false) ∧
    ((BlockCache.read st offset len).res = -1 →
      (BlockCache.read st offset len).bytes = [] ∧
      (BlockCache.read st offset len).copied = 0) ∧
    (present st (offset / BLOCK_SIZE) = true →
      (BlockCache.read st offset len).copied =
        min len ((offset / BLOCK_SIZE +
          present_run st (offset / BLOCK_SIZE)
            ((offset + len - 1) / BLOCK_SIZE + 1 - offset / BLOCK_SIZE)) * BLOCK_SIZE
          - offset) ∧
      (BlockCache.read st offset len).res =
        ((BlockCache.read st offset len).copied : Int) ∧
      0 < (BlockCache.read st offset len).copied ∧
      (BlockCache.read st offset len).copied ≤ len ∧
      (BlockCache.read st offset len).bytes.length =
        (BlockCache.read st offset len).copied ∧
      (∀ j, j < present_run st (offset / BLOCK_SIZE)
          ((offset + len - 1) / BLOCK_SIZE + 1 - offset / BLOCK_SIZE) →
        present st (offset / BLOCK_SIZE + j) = true) ∧
      (present_run st (offset / BLOCK_SIZE)
          ((offset + len - 1) / BLOCK_SIZE + 1 - offset / BLOCK_SIZE) =
          (offset + len - 1) / BLOCK_SIZE + 1 - offset / BLOCK_SIZE →
        (BlockCache.read st offset len).copied = len) ∧
      (present_run st (offset / BLOCK_SIZE)
          ((offset + len - 1) / BLOCK_SIZE + 1 - offset / BLOCK_SIZE) <
          (offset + len - 1) / BLOCK_SIZE + 1 - offset / BLOCK_SIZE →
        (BlockCache.read st offset len).copied < len ∧
        present st (offset / BLOCK_SIZE +
          present_run st (offset / BLOCK_SIZE)
            ((offset + len - 1) / BLOCK_SIZE + 1 - offset / BLOCK_SIZE)) = false)) := by
  by_cases hemp : st.id_to_slot.isEmpty = true
  · have hnil : st.id_to_slot = [] := List.isEmpty_iff.mp hemp
    have hpre : present st (offset / BLOCK_SIZE) = false := by
      simp [present, hnil, lookupId]
    have hread : BlockCache.read st offset len = ⟨-1, [], 0, st⟩ := by
      simp [BlockCache.read, hemp]
    rw [hread]
    refine ⟨⟨fun _ => hpre, fun _ => rfl⟩, fun _ => ⟨rfl, rfl⟩, fun hcon => ?_⟩
    rw [hpre] at hcon
    exact Bool.noConfusion hcon
  · have hnemp : st.id_to_slot.isEmpty = false := by simpa using hemp
    have hpred : u64_pred (offset + len) = offset + len - 1 := u64_pred_le (by omega) hov
    obtain ⟨st', bytes, hres, hid, hblen⟩ :=
      read_blocks_spec offset len (offset / BLOCK_SIZE) ((offset + len - 1) / BLOCK_SIZE)
        hlen hov rfl rfl
        ((offset + len - 1) / BLOCK_SIZE + 1 - offset / BLOCK_SIZE) 0 0 [] st
        rfl (Or.inl ⟨rfl, rfl⟩) hlen
    simp only [Nat.add_zero, List.nil_append, beq_self_eq_true, Bool.true_and,
      Nat.sub_zero] at hres hblen
    have hread : BlockCache.read st offset len =
        (if (present_run st (offset / BLOCK_SIZE)
            ((offset + len - 1) / BLOCK_SIZE + 1 - offset / BLOCK_SIZE) == 0)
         then ⟨-1, bytes,
            min len ((offset / BLOCK_SIZE +
              present_run st (offset / BLOCK_SIZE)
                ((offset + len - 1) / BLOCK_SIZE + 1 - offset / BLOCK_SIZE)) * BLOCK_SIZE
              - offset), st'⟩
         else ⟨int32_cast (min len ((offset / BLOCK_SIZE +
              present_run st (offset / BLOCK_SIZE)
                ((offset + len - 1) / BLOCK_SIZE + 1 - offset / BLOCK_SIZE)) * BLOCK_SIZE
              - offset)), bytes,
            min len ((offset / BLOCK_SIZE +
              present_run st (offset / BLOCK_SIZE)
                ((offset + len - 1) / BLOCK_SIZE + 1 - offset / BLOCK_SIZE)) * BLOCK_SIZE
              - offset), st'⟩) := by
      simp only [BlockCache.read, hnemp, Bool.false_eq_true, if_false, hpred]
      rw [hres]
    by_cases hrun0 : present_run st (offset / BLOCK_SIZE)
        ((offset + len - 1) / BLOCK_SIZE + 1 - offset / BLOCK_SIZE) = 0
    · have hF : 0 < (offset + len - 1) / BLOCK_SIZE + 1 - offset / BLOCK_SIZE := by
        have := Nat.div_le_div_right (c := BLOCK_SIZE)
          (show offset ≤ offset + len - 1 by omega)
        omega
      have hpre : present st (offset / BLOCK_SIZE) = false := by
        have hm := present_run_miss st
          ((offset + len - 1) / BLOCK_SIZE + 1 - offset / BLOCK_SIZE)
          (offset / BLOCK_SIZE) (by rw [hrun0]; exact hF)
        rw [hrun0] at hm
        simpa using hm
      have hmin0 : min len ((offset / BLOCK_SIZE +
          present_run st (offset / BLOCK_SIZE)
            ((offset + len - 1) / BLOCK_SIZE + 1 - offset / BLOCK_SIZE)) * BLOCK_SIZE
          - offset) = 0 := by
        rw [hrun0]
        simp only [Nat.add_zero]
        simp only [BLOCK_SIZE]
        omega
      have hbnil : bytes = [] := by
        rw [hmin0] at hblen
        exact List.eq_nil_of_length_eq_zero hblen
      have hread0 : BlockCache.read st offset len = ⟨-1, [], 0, st'⟩ := by
        rw [hread, hmin0, hbnil, hrun0]
        simp
      rw [hread0]
      refine ⟨⟨fun _ => hpre, fun _ => rfl⟩, fun _ => ⟨rfl, rfl⟩, fun hcon => ?_⟩
      rw [hpre] at hcon
      exact Bool.noConfusion hcon
    · have hrpos : 0 < present_run st (offset / BLOCK_SIZE)
          ((offset + len - 1) / BLOCK_SIZE + 1 - offset / BLOCK_SIZE) :=
        Nat.pos_of_ne_zero hrun0
      have hpre : present st (offset / BLOCK_SIZE) = true := by
        have := present_run_pres st
          ((offset + len - 1) / BLOCK_SIZE + 1 - offset / BLOCK_SIZE)
          (offset / BLOCK_SIZE) 0 hrpos
        simpa using this
      have hflag : (present_run st (offset / BLOCK_SIZE)
          ((offset + len - 1) / BLOCK_SIZE + 1 - offset / BLOCK_SIZE) == 0) = false := by
        simp [hrun0]
      have hcop_pos : 0 < min len ((offset / BLOCK_SIZE +
          present_run st (offset / BLOCK_SIZE)
            ((offset + len - 1) / BLOCK_SIZE + 1 - offset / BLOCK_SIZE)) * BLOCK_SIZE
          - offset) := by
        set r := present_run st (offset / BLOCK_SIZE)
          ((offset + len - 1) / BLOCK_SIZE + 1 - offset / BLOCK_SIZE)
        simp only [BLOCK_SIZE]
        omega
      have hcop_le : min len ((offset / BLOCK_SIZE +
          present_run st (offset / BLOCK_SIZE)
            ((offset + len - 1) / BLOCK_SIZE + 1 - offset / BLOCK_SIZE)) * BLOCK_SIZE
          - offset) ≤ len := Nat.min_le_left _ _
      have hint : int32_cast (min len ((offset / BLOCK_SIZE +
          present_run st (offset / BLOCK_SIZE)
            ((offset + len - 1) / BLOCK_SIZE + 1 - offset / BLOCK_SIZE)) * BLOCK_SIZE
          - offset)) = ((min len ((offset / BLOCK_SIZE +
          present_run st (offset / BLOCK_SIZE)
            ((offset + len - 1) / BLOCK_SIZE + 1 - offset / BLOCK_SIZE)) * BLOCK_SIZE
          - offset) : Nat) : Int) := int32_cast_eq (by omega)
      rw [hread, hflag]
      simp only [Bool.false_eq_true, if_false]
      refine ⟨⟨fun habs => ?_, fun habs => ?_⟩, fun habs => ?_, fun _ => ?_⟩
      · rw [hint] at habs
        exfalso
        omega
      · rw [hpre] at habs
        exact Bool.noConfusion habs
      · rw [hint] at habs
        exfalso
        omega
      · refine ⟨by trivial, hint, hcop_pos, hcop_le, by simpa using hblen,
          fun j hj => present_run_pres st _ _ j hj, fun hfull => ?_, fun hpart => ?_⟩
        · rw [hfull]
          show min len ((offset / BLOCK_SIZE +
            ((offset + len - 1) / BLOCK_SIZE + 1 - offset / BLOCK_SIZE)) * BLOCK_SIZE
            - offset) = len
          simp only [BLOCK_SIZE]
          omega
        · refine ⟨?_, present_run_miss st _ _ hpart⟩
          show min len ((offset / BLOCK_SIZE +
            present_run st (offset / BLOCK_SIZE)
              ((offset + len - 1) / BLOCK_SIZE + 1 - offset / BLOCK_SIZE)) * BLOCK_SIZE
            - offset) < len
          set r := present_run st (offset / BLOCK_SIZE)
            ((offset + len - 1) / BLOCK_SIZE + 1 - offset / BLOCK_SIZE)
          simp only [BLOCK_SIZE]
          simp only [BLOCK_SIZE] at hpart
          omega

/-- C1 counterexample: at offset `2^64 - 1` with `len = 2` (a legal call to
the exported `cache_read(uint64_t, int, ...)`), the `uint64` expression
`offset + len - 1` wraps to 0, so `end_block < start_block`, the loop body
never runs, and `BlockCache::read` returns 0 — although the first needed
block `offset / B` is absent and nothing was copied, where the claim requires
the MISS sentinel -1. -/
theorem c1_counterexample :
    present witState1 ((2 ^ 64 - 1) / BLOCK_SIZE) = false ∧
    BlockCache.read witState1 (2 ^ 64 - 1) 2 = ⟨0, [], 0, witState1⟩ ∧
    ((0 : Int) ≠ -1) := ⟨by decide, rfl, by decide⟩

/-- Witness for C1 at a 5-byte read starting 3 bytes into the cached
block 7 of `witState1`. -/
theorem c1_read_amended_witness :
    (0 < 5 ∧ 7 * BLOCK_SIZE + 3 + 5 ≤ UINT64_MOD ∧ 5 < 2 ^ 31) ∧
    (((BlockCache.read witState1 (7 * BLOCK_SIZE + 3) 5).res = -1 ↔
      present witState1 ((7 * BLOCK_SIZE + 3) / BLOCK_SIZE) = false) ∧
    ((BlockCache.read witState1 (7 * BLOCK_SIZE + 3) 5).res = -1 →
      (BlockCache.read witState1 (7 * BLOCK_SIZE + 3) 5).bytes = [] ∧
      (BlockCache.read witState1 (7 * BLOCK_SIZE + 3) 5).copied = 0) ∧
    (present witState1 ((7 * BLOCK_SIZE + 3) / BLOCK_SIZE) = true →
      (BlockCache.read witState1 (7 * BLOCK_SIZE + 3) 5).copied =
        min 5 (((7 * BLOCK_SIZE + 3) / BLOCK_SIZE +
          present_run witState1 ((7 * BLOCK_SIZE + 3) / BLOCK_SIZE)
            ((7 * BLOCK_SIZE + 3 + 5 - 1) / BLOCK_SIZE + 1 -
              (7 * BLOCK_SIZE + 3) / BLOCK_SIZE)) * BLOCK_SIZE
          - (7 * BLOCK_SIZE + 3)) ∧
      (BlockCache.read witState1 (7 * BLOCK_SIZE + 3) 5).res =
        ((BlockCache.read witState1 (7 * BLOCK_SIZE + 3) 5).copied : Int) ∧
      0 < (BlockCache.read witState1 (7 * BLOCK_SIZE + 3) 5).copied ∧
      (BlockCache.read witState1 (7 * BLOCK_SIZE + 3) 5).copied ≤ 5 ∧
      (BlockCache.read witState1 (7 * BLOCK_SIZE + 3) 5).bytes.length =
        (BlockCache.read witState1 (7 * BLOCK_SIZE + 3) 5).copied ∧
      (∀ j, j < present_run witState1 ((7 * BLOCK_SIZE + 3) / BLOCK_SIZE)
          ((7 * BLOCK_SIZE + 3 + 5 - 1) / BLOCK_SIZE + 1 -
            (7 * BLOCK_SIZE + 3) / BLOCK_SIZE) →
        present witState1 ((7 * BLOCK_SIZE + 3) / BLOCK_SIZE + j) = true) ∧
      (present_run witState1 ((7 * BLOCK_SIZE + 3) / BLOCK_SIZE)
          ((7 * BLOCK_SIZE + 3 + 5 - 1) / BLOCK_SIZE + 1 -
            (7 * BLOCK_SIZE + 3) / BLOCK_SIZE) =
          (7 * BLOCK_SIZE + 3 + 5 - 1) / BLOCK_SIZE + 1 -
            (7 * BLOCK_SIZE + 3) / BLOCK_SIZE →
        (BlockCache.read witState1 (7 * BLOCK_SIZE + 3) 5).copied = 5) ∧
      (present_run witState1 ((7 * BLOCK_SIZE + 3) / BLOCK_SIZE)
          ((7 * BLOCK_SIZE + 3 + 5 - 1) / BLOCK_SIZE + 1 -
            (7 * BLOCK_SIZE + 3) / BLOCK_SIZE) <
          (7 * BLOCK_SIZE + 3 + 5 - 1) / BLOCK_SIZE + 1 -
            (7 * BLOCK_SIZE + 3) / BLOCK_SIZE →
        (BlockCache.read witState1 (7 * BLOCK_SIZE + 3) 5).copied < 5 ∧
        present witState1 ((7 * BLOCK_SIZE + 3) / BLOCK_SIZE +
          present_run witState1 ((7 * BLOCK_SIZE + 3) / BLOCK_SIZE)
            ((7 * BLOCK_SIZE + 3 + 5 - 1) / BLOCK_SIZE + 1 -
              (7 * BLOCK_SIZE + 3) / BLOCK_SIZE)) = false))) :=
  ⟨⟨by decide, by norm_num [BLOCK_SIZE, UINT64_MOD], by norm_num⟩,
   c1_read_amended witState1 (7 * BLOCK_SIZE + 3) 5 (by decide)
     (by norm_num [BLOCK_SIZE, UINT64_MOD]) (by norm_num)⟩
